import Mathlib

/-!
Shallow embedding of the gohttp command-line tool (vail130/gohttp).

The embedding models the pure control and data logic of the program:

* the history listing walk `getHistoryRecords` (application/history.go),
* the load-by-index path `loadAppFromHistory` (application/history.go),
* the history list option parsing `getHistoryListOptions` (application/history.go),
* the command-line option reader `getOption` and `flagIsActive` (application.go),
* the mode dispatcher `DetermineMode` (application.go),
* the history file name construction `getFileName` and `cleanUrl` (application.go),
* the request construction `CreateRequest` (application/request.go).

External collaborators (the file system, the network, Go time formatting and
Go URL parsing) are modelled as explicit parameters: the directory listing is
a list of file names in ascending name order (as `ioutil.ReadDir` returns it),
URL parsing is an oracle predicate, and input files are an oracle from paths
to optional contents.  Run-time panics of the Go code (slice index out of
range) are modelled as explicit error values.
-/

namespace GoHttp

/-- A directory entry is processed by the history walk only when its name is
nonempty and does not start with a dot; mirrors
`len(fileName) > 0 && string(fileName[0]) != "."` in `getHistoryRecords`. -/
def nonHiddenB (name : String) : Bool :=
  match name.data with
  | [] => false
  | c :: _ => c != '.'

/-- `startsList pat l` is true when `pat` is an initial segment of `l`. -/
def startsList : List Char → List Char → Bool
  | [], _ => true
  | _ :: _, [] => false
  | p :: ps, t :: ts => p == t && startsList ps ts

/-- `occursIn pat l` is true when `pat` occurs contiguously inside `l`;
models `strings.Index(l, pat) > -1`. -/
def occursIn (pat : List Char) : List Char → Bool
  | [] => startsList pat []
  | t :: ts => startsList pat (t :: ts) || occursIn pat ts

/-- Character-wise model of Go `strings.ToLower` (both lowercase their
string one character at a time). -/
def strLower (s : String) : String := String.mk (s.data.map Char.toLower)

/-- Character-wise model of Go `strings.ToUpper`. -/
def strUpper (s : String) : String := String.mk (s.data.map Char.toUpper)

/-- The find-filter test of `getHistoryRecords`: the record matches when
`find` is empty, or the case-insensitive flag is set and the lowercased name
contains the lowercased `find`, or the name contains `find` literally. -/
def matchesFind (find : String) (ci : Bool) (name : String) : Bool :=
  find == "" ||
    (ci && occursIn (strLower find).data (strLower name).data) ||
    occursIn find.data name.data

/-- The values produced by the walk loop of `getHistoryRecords`:
collected file names, their display labels, and the final skip counter. -/
structure LoopOut where
  items : List String
  idxs : List Nat
  skipped : Nat
  deriving Repr, DecidableEq

/-- The walk loop of `getHistoryRecords` (application/history.go).  The Go
code iterates the directory listing from the last entry down to the first,
so the argument here is the walk order (descending name order).  `ii` is
`itemIndex`, `ns` is `numSkipped`, `ni` is `len(items)` so far.  The loop
stops once `limit` is at least 1 and `ni` has reached it; a non-hidden entry
is collected when `numSkipped >= skip` and the find filter matches, and is
otherwise counted as skipped; hidden entries are ignored entirely. -/
def recordsLoop (skip limit : Int) (find : String) (ci : Bool) :
    List String → Nat → Nat → Nat → LoopOut
  | [], _, ns, _ => ⟨[], [], ns⟩
  | name :: rest, ii, ns, ni =>
    if 1 ≤ limit ∧ limit ≤ (ni : Int) then ⟨[], [], ns⟩
    else if nonHiddenB name then
      if skip ≤ (ns : Int) ∧ matchesFind find ci name = true then
        let r := recordsLoop skip limit find ci rest (ii + 1) ns (ni + 1)
        ⟨name :: r.items, (ii + 1) :: r.idxs, r.skipped⟩
      else recordsLoop skip limit find ci rest (ii + 1) (ns + 1) ni
    else recordsLoop skip limit find ci rest ii ns ni

/-- The result quadruple of `getHistoryRecords`. -/
structure HistOut where
  items : List String
  idxs : List Nat
  numTotal : Nat
  numSkipped : Nat
  deriving Repr, DecidableEq

/-- `getHistoryRecords` of application/history.go.  `fs` is the directory
listing in ascending name order; the walk visits it in reverse.  Note that
`numTotal` is set to `len(fileInfos)`, the count of all entries, hidden
ones included. -/
def getHistoryRecords (fs : List String) (skip limit : Int)
    (find : String) (ci : Bool) : HistOut :=
  let r := recordsLoop skip limit find ci fs.reverse 0 0 0
  ⟨r.items, r.idxs, fs.length, r.skipped⟩

/-- Number of non-hidden entries of a directory snapshot. -/
def countNonHidden (fs : List String) : Nat :=
  (fs.filter nonHiddenB).length

/-- The item-label pairing produced by one listing call. -/
def listPairs (fs : List String) (skip limit : Int)
    (find : String) (ci : Bool) : List (String × Nat) :=
  ((getHistoryRecords fs skip limit find ci).items).zip
    (getHistoryRecords fs skip limit find ci).idxs

/-- `indexedFrom k l` pairs the elements of `l` with positions
`k+1, k+2, ...`; the reference indexing of the full non-hidden walk. -/
def indexedFrom : Nat → List String → List (String × Nat)
  | _, [] => []
  | k, a :: l => (a, k + 1) :: indexedFrom (k + 1) l

/-- Errors of the history load path (application/history.go):
`missingIndex` is "Missing history record index.", `parseErr` is the
propagated `strconv.Atoi` error, `noRecords` is "No history records found.",
`invalidIndex` is "Invalid history record index: ...". -/
inductive LoadErr
  | missingIndex
  | parseErr
  | noRecords
  | invalidIndex
  deriving Repr, DecidableEq

/-- The index-level core of `loadAppFromHistory`: list with
`skip = historyIndex - 1` when the index exceeds 1 (otherwise 0), `limit = 1`,
empty find and case-insensitivity on; succeed only when exactly one item and
one label come back and the label equals the requested index.  On success the
Go code opens and parses the file; the model returns the file name. -/
def loadRecordByIndex (fs : List String) (n : Int) : Except LoadErr String :=
  let skip : Int := if n > 1 then n - 1 else 0
  let r := getHistoryRecords fs skip 1 "" true
  match r.items, r.idxs with
  | [x], [i] => if n = (i : Int) then .ok x else .error .invalidIndex
  | _, _ => .error .noRecords

/-- `l.all Char.isDigit` for the digit check of the Atoi model. -/
def allDigits (l : List Char) : Bool := l.all Char.isDigit

/-- Decimal value of a digit list. -/
def digitsToNat (l : List Char) : Nat :=
  l.foldl (fun a c => 10 * a + (c.toNat - 48)) 0

/-- Model of Go `strconv.Atoi`: optional sign then one or more decimal
digits; anything else is an error (`none`).  Overflow of the machine integer
range is not modelled. -/
def atoi (s : String) : Option Int :=
  match s.data with
  | [] => none
  | '+' :: rest =>
    if rest ≠ [] ∧ allDigits rest = true then some (digitsToNat rest) else none
  | '-' :: rest =>
    if rest ≠ [] ∧ allDigits rest = true then some (-(digitsToNat rest : Int)) else none
  | l => if allDigits l = true then some (digitsToNat l) else none

/-- The argument-level `loadAppFromHistory` (application/history.go): fewer
than three tokens is "Missing history record index."; a third token that
`strconv.Atoi` rejects propagates the parse error; otherwise the record is
loaded by index.  Both early errors happen before the directory is read. -/
def loadAppFromHistory (args : List String) (fs : List String) :
    Except LoadErr String :=
  if args.length < 3 then .error .missingIndex
  else
    match atoi (args.getD 2 "") with
    | none => .error .parseErr
    | some n => loadRecordByIndex fs n

/-- `flagIsActive` of application.go: true when any alias occurs anywhere in
the argument list. -/
def flagIsActive (args aliases : List String) : Bool :=
  args.any (fun a => aliases.contains a)

/-- `getOption` of application.go.  The Go loop takes the token after the
first occurrence of any alias and breaks; its range guard `len(app.Args) > i`
is vacuously true, so when the found alias is the final token the access
`app.Args[i+1]` is out of range and the program panics — modelled as
`.error ()`. -/
def getOption (args : List String) (aliases : List String) (deflt : String) :
    Except Unit String :=
  match args with
  | [] => .ok deflt
  | a :: rest =>
    if aliases.contains a then
      match rest with
      | [] => .error ()
      | v :: _ => .ok v
    else getOption rest aliases deflt

/-- `getHistoryListOptions` of application/history.go: read the skip option
(non-numeric or negative collapses to 0), the limit option (non-numeric or
below 1 collapses to 10), the find string, and the case flag.  A dangling
alias makes the corresponding `getOption` call panic, modelled as `.error`. -/
def getHistoryListOptions (args : List String) :
    Except Unit (Int × Int × String × Bool) :=
  match getOption args ["-s", "--skip"] "" with
  | .error e => .error e
  | .ok skipOpt =>
    let skip : Int :=
      if skipOpt = "" then 0
      else match atoi skipOpt with
        | none => 0
        | some v => if v < 0 then 0 else v
    match getOption args ["-l", "--limit"] "" with
    | .error e => .error e
    | .ok limitOpt =>
      let limit : Int :=
        if limitOpt = "" then 10
        else match atoi limitOpt with
          | none => 10
          | some v => if v < 1 then 10 else v
      match getOption args ["-f", "--find"] "" with
      | .error e => .error e
      | .ok find =>
        .ok (skip, limit, find, flagIsActive args ["-i", "--insensitive"])

/-- The command list of the `Application` constructed by `Start`. -/
def commands : List String := ["help", "version", "history"]

/-- The command-matching loop of `DetermineMode`: the first command equal to
the lowercased first argument is selected; `""` plays the role of the
zero-valued `app.Mode` when nothing matches. -/
def modeLoop : List String → String → String
  | [], _ => ""
  | c :: rest, a0 => if strLower a0 = c then strLower a0 else modeLoop rest a0

/-- `DetermineMode` of application.go: no arguments means help; otherwise
the first argument selects a command by case-insensitive equality, and any
unmatched first argument selects http mode. -/
def determineMode (args : List String) : String :=
  match args with
  | [] => "help"
  | a0 :: _ =>
    let m := modeLoop commands a0
    if m = "" then "http" else m

/-- Character class `[a-zA-Z0-9_]` of the `cleanUrl` regular expression. -/
def isWordChar (c : Char) : Bool := c.isAlphanum || c == '_'

/-- Per-character pass of the first `cleanUrl` regular expression: any
character outside `[a-zA-Z0-9_]` becomes an underscore. -/
def urlCharClean (c : Char) : Char := if isWordChar c then c else '_'

/-- The second `cleanUrl` regular expression `_+` replaced by `_`: collapse
every maximal run of underscores to a single underscore. -/
def collapseU : List Char → List Char
  | [] => []
  | [c] => [c]
  | c :: d :: rest =>
    if c = '_' ∧ d = '_' then collapseU (d :: rest)
    else c :: collapseU (d :: rest)

/-- `cleanUrl` of application.go: replace every character outside
`[a-zA-Z0-9_]` with `_`, then collapse repeated underscores. -/
def cleanUrl (url : String) : String :=
  String.mk (collapseU (url.data.map urlCharClean))

/-- Character-level model of the Go byte slice `s[:n]` (all strings reaching
it are ASCII). -/
def strTake (s : String) (n : Nat) : String := String.mk (s.data.take n)

/-- The time-component character replacement of `getFileName`: the three
single-character `strings.Replace` calls turn `:`, space and `-` into `_`. -/
def timeCharClean (c : Char) : Char :=
  if c = ':' ∨ c = ' ' ∨ c = '-' then '_' else c

/-- The timestamp component of `getFileName`: the first 19 characters of the
Go-formatted start time with `:`, space and `-` replaced by `_`. -/
def cleanTimeOf (ts : String) : String :=
  String.mk ((strTake ts 19).data.map timeCharClean)

/-- `getFileName` of application.go (the current version, split alongside
history.go and request.go): join timestamp, method and sanitized URL with
`__`, trim to 196 characters, then append the `.json` extension. -/
def getFileName (startTime method url : String) : String :=
  let fileName := cleanTimeOf startTime ++ "__" ++ method ++ "__" ++ cleanUrl url
  let fileName := if fileName.length > 196 then strTake fileName 196 else fileName
  fileName ++ ".json"

/-- The request-method list of the `Application` constructed by `Start`. -/
def requestMethods : List String := ["GET", "HEAD", "POST", "PUT", "PATCH", "DELETE"]

/-- The method-matching loop of `CreateRequest`: the first known method equal
to the uppercased first argument, if any. -/
def methodLoop : List String → String → Option String
  | [], _ => none
  | m :: rest, a0 => if m = strUpper a0 then some m else methodLoop rest a0

/-- Errors of `CreateRequest` (application/request.go):
`argIndexOutOfRange` is a run-time slice-index panic (empty argument list or
a dangling option alias), `invalidArgs` is "Invalid arguments. ...",
`urlParseErr` is "Error parsing URL: ...", `dataFlagInvalid` is
"Data flag is only valid for POST, PATCH, and PUT requests.". -/
inductive CreateErr
  | argIndexOutOfRange
  | invalidArgs
  | urlParseErr
  | dataFlagInvalid
  deriving Repr, DecidableEq

/-- The request descriptor built by `CreateRequest`, together with the input
and output file paths stored on the application. -/
structure GoRequest where
  method : String
  url : String
  timeout : Int
  contentType : String
  accept : String
  contentLength : Nat
  body : String
  inputFilePath : String
  outputFilePath : String
  deriving Repr, DecidableEq

/-- `CreateRequest` of application/request.go.  `urlOk` is the oracle for Go
`url.Parse` succeeding on the URL token; `fileContents` is the oracle for the
input file system (`none` plays the role of `os.Stat` reporting absence, in
which case the input path is dropped).  The option reads happen in the order
of the Go code, before the data-flag check, so a dangling alias panics first;
the data flag on a method other than POST, PATCH and PUT is rejected before
any network activity. -/
def createRequest (urlOk : String → Bool) (fileContents : String → Option String)
    (args : List String) : Except CreateErr GoRequest :=
  match args with
  | [] => .error .argIndexOutOfRange
  | a0 :: _ =>
    let resolved := methodLoop requestMethods a0
    let requestMethod := resolved.getD "GET"
    let urlIndex := if resolved.isSome then 1 else 0
    if args.length < urlIndex + 1 then .error .invalidArgs
    else if urlOk (args.getD urlIndex "") = false then .error .urlParseErr
    else
      match getOption args ["-i", "--input"] "" with
      | .error _ => .error .argIndexOutOfRange
      | .ok inputFilePath0 =>
      match getOption args ["-o", "--output"] "" with
      | .error _ => .error .argIndexOutOfRange
      | .ok outputFilePath =>
      let jsonContentType := flagIsActive args ["-j", "--json"]
      match getOption args ["-c", "--content-type"] "" with
      | .error _ => .error .argIndexOutOfRange
      | .ok contentTypeOpt =>
      match getOption args ["-a", "--accept"] "" with
      | .error _ => .error .argIndexOutOfRange
      | .ok acceptOpt =>
      match getOption args ["-d", "--data"] "" with
      | .error _ => .error .argIndexOutOfRange
      | .ok dataOpt =>
      match getOption args ["-t", "--timeout"] "0" with
      | .error _ => .error .argIndexOutOfRange
      | .ok timeoutOpt =>
      let timeout : Int :=
        match atoi timeoutOpt with
        | none => 60
        | some v => if v < 1 then 60 else v
      let isBodyMethod :=
        requestMethod = "POST" ∨ requestMethod = "PATCH" ∨ requestMethod = "PUT"
      let requestContentType :=
        if jsonContentType then "application/json"
        else if contentTypeOpt ≠ "" then contentTypeOpt
        else if requestMethod = "POST" ∨ requestMethod = "PATCH" ∨ requestMethod = "PUT"
          then "application/json"
        else "application/x-www-form-urlencoded"
      let accept := if acceptOpt ≠ "" then acceptOpt else "*/*"
      if isBodyMethod then
        if dataOpt ≠ "" then
          .ok ⟨requestMethod, args.getD urlIndex "", timeout, requestContentType,
            accept, dataOpt.length, dataOpt, inputFilePath0, outputFilePath⟩
        else
          match (if inputFilePath0 = "" then none else fileContents inputFilePath0) with
          | none =>
            .ok ⟨requestMethod, args.getD urlIndex "", timeout, requestContentType,
              accept, 0, "", "", outputFilePath⟩
          | some content =>
            .ok ⟨requestMethod, args.getD urlIndex "", timeout, requestContentType,
              accept, content.length, content, inputFilePath0, outputFilePath⟩
      else if dataOpt ≠ "" then .error .dataFlagInvalid
      else
        .ok ⟨requestMethod, args.getD urlIndex "", timeout, requestContentType,
          accept, 0, "", inputFilePath0, outputFilePath⟩

/-- The resolved request method of an invocation, as `CreateRequest`
computes it: the uppercased first token when it is a known method, else GET. -/
def requestMethodOf (args : List String) : String :=
  match args with
  | [] => "GET"
  | a0 :: _ => (methodLoop requestMethods a0).getD "GET"

/-- The URL token position of an invocation: 1 when the first token is a
known method, else 0. -/
def urlIndexOf (args : List String) : Nat :=
  match args with
  | [] => 0
  | a0 :: _ => if (methodLoop requestMethods a0).isSome then 1 else 0

/-!  Helper lemmas about the history walk loop. -/

theorem recordsLoop_stop (skip limit : Int) (find : String) (ci : Bool)
    (w : List String) (ii ns ni : Nat) (h1 : 1 ≤ limit) (h2 : limit ≤ (ni : Int)) :
    recordsLoop skip limit find ci w ii ns ni = ⟨[], [], ns⟩ := by
  cases w with
  | nil => simp [recordsLoop]
  | cons a rest => simp [recordsLoop, h1, h2]

theorem recordsLoop_length (skip limit : Int) (find : String) (ci : Bool) :
    ∀ (w : List String) (ii ns ni : Nat),
      (recordsLoop skip limit find ci w ii ns ni).items.length =
        (recordsLoop skip limit find ci w ii ns ni).idxs.length := by
  intro w
  induction w with
  | nil => intro ii ns ni; simp [recordsLoop]
  | cons a rest ih =>
    intro ii ns ni
    by_cases hstop : 1 ≤ limit ∧ limit ≤ (ni : Int)
    · simp [recordsLoop, hstop]
    · by_cases hh : nonHiddenB a = true
      · by_cases hinc : skip ≤ (ns : Int) ∧ matchesFind find ci a = true
        · simp [recordsLoop, hstop, hh, hinc, ih]
        · simp [recordsLoop, hstop, hh, hinc, ih]
      · simp [recordsLoop, hstop, hh, ih]

theorem mem_indexedFrom : ∀ (l : List String) (k : Nat) (p : String × Nat),
    p ∈ indexedFrom k l → k < p.2 ∧ p.2 ≤ k + l.length ∧ p.1 ∈ l := by
  intro l
  induction l with
  | nil => intro k p h; simp [indexedFrom] at h
  | cons a rest ih =>
    intro k p h
    simp only [indexedFrom, List.mem_cons] at h
    rcases h with h | h
    · subst h
      refine ⟨by omega, by simp, by simp⟩
    · obtain ⟨h1, h2, h3⟩ := ih (k + 1) p h
      exact ⟨by omega, by simp; omega, List.mem_cons_of_mem _ h3⟩

theorem indexedFrom_pairwise : ∀ (l : List String) (k : Nat),
    (indexedFrom k l).Pairwise (fun p q => p.2 < q.2) := by
  intro l
  induction l with
  | nil => intro k; simp [indexedFrom]
  | cons a rest ih =>
    intro k
    simp only [indexedFrom]
    refine List.Pairwise.cons ?_ (ih (k + 1))
    intro q hq
    have h := mem_indexedFrom rest (k + 1) q hq
    simp only []
    omega

theorem indexedFrom_functional : ∀ (l : List String) (k : Nat), l.Nodup →
    ∀ (a : String) (i j : Nat),
      (a, i) ∈ indexedFrom k l → (a, j) ∈ indexedFrom k l → i = j := by
  intro l
  induction l with
  | nil => intro k _ a i j hi; simp [indexedFrom] at hi
  | cons b rest ih =>
    intro k hnd a i j hi hj
    obtain ⟨hb, hrest⟩ := List.nodup_cons.mp hnd
    simp only [indexedFrom, List.mem_cons, Prod.mk.injEq] at hi hj
    rcases hi with ⟨hab, hik⟩ | hi
    · rcases hj with ⟨_, hjk⟩ | hj
      · omega
      · exact absurd ((mem_indexedFrom rest (k + 1) (a, j) hj).2.2) (hab ▸ hb)
    · rcases hj with ⟨hab, _⟩ | hj
      · exact absurd ((mem_indexedFrom rest (k + 1) (a, i) hi).2.2) (hab ▸ hb)
      · exact ih (k + 1) hrest a i j hi hj

theorem getElem_mem_indexedFrom :
    ∀ (l : List String) (k j : Nat) (h : j < l.length),
      (l[j], k + j + 1) ∈ indexedFrom k l := by
  intro l
  induction l with
  | nil => intro k j h; simp at h
  | cons a rest ih =>
    intro k j h
    cases j with
    | zero => simp [indexedFrom]
    | succ j' =>
      have hj' : j' < rest.length := by simpa using h
      have := ih (k + 1) j' hj'
      simp only [indexedFrom, List.mem_cons]
      right
      have harith : k + (j' + 1) + 1 = (k + 1) + j' + 1 := by omega
      rw [List.getElem_cons_succ, harith]
      exact this

theorem zip_recordsLoop_sublist (skip limit : Int) (find : String) (ci : Bool) :
    ∀ (w : List String) (ii ns ni : Nat),
      ((recordsLoop skip limit find ci w ii ns ni).items.zip
        (recordsLoop skip limit find ci w ii ns ni).idxs).Sublist
        (indexedFrom ii (w.filter nonHiddenB)) := by
  intro w
  induction w with
  | nil => intro ii ns ni; simp [recordsLoop]
  | cons a rest ih =>
    intro ii ns ni
    by_cases hstop : 1 ≤ limit ∧ limit ≤ (ni : Int)
    · simp [recordsLoop, hstop]
    · by_cases hh : nonHiddenB a = true
      · by_cases hinc : skip ≤ (ns : Int) ∧ matchesFind find ci a = true
        · simp only [recordsLoop, if_neg hstop, if_pos hh, if_pos hinc,
            List.filter_cons_of_pos hh, indexedFrom, List.zip_cons_cons]
          exact List.Sublist.cons₂ _ (ih (ii + 1) ns (ni + 1))
        · simp only [recordsLoop, if_neg hstop, if_pos hh, if_neg hinc,
            List.filter_cons_of_pos hh, indexedFrom]
          exact List.Sublist.cons _ (ih (ii + 1) (ns + 1) ni)
      · simp only [recordsLoop, if_neg hstop, if_neg hh,
          List.filter_cons_of_neg (by simpa using hh)]
        exact ih ii ns ni

theorem recordsLoop_unbounded : ∀ (w : List String) (ii ns ni : Nat),
    recordsLoop 0 0 "" false w ii ns ni =
      ⟨w.filter nonHiddenB,
        (indexedFrom ii (w.filter nonHiddenB)).map Prod.snd, ns⟩ := by
  intro w
  induction w with
  | nil => intro ii ns ni; simp [recordsLoop, indexedFrom]
  | cons a rest ih =>
    intro ii ns ni
    have hstop : ¬((1 : Int) ≤ 0 ∧ (0 : Int) ≤ (ni : Nat)) := by omega
    by_cases hh : nonHiddenB a = true
    · have hinc : (0 : Int) ≤ ((ns : Nat) : Int) ∧ matchesFind "" false a = true :=
        ⟨by omega, by simp [matchesFind]⟩
      simp only [recordsLoop, if_neg hstop, if_pos hh, if_pos hinc, ih,
        List.filter_cons_of_pos hh, indexedFrom, List.map_cons]
    · simp only [recordsLoop, if_neg hstop, if_neg hh, ih,
        List.filter_cons_of_neg (by simpa using hh)]

theorem zip_map_snd_indexedFrom : ∀ (l : List String) (k : Nat),
    l.zip ((indexedFrom k l).map Prod.snd) = indexedFrom k l := by
  intro l
  induction l with
  | nil => intro k; simp [indexedFrom]
  | cons a rest ih => intro k; simp [indexedFrom, ih]

theorem countNonHidden_reverse (fs : List String) :
    (fs.reverse.filter nonHiddenB).length = countNonHidden fs := by
  simp [countNonHidden, List.filter_reverse]

theorem recordsLoop_load : ∀ (w : List String) (sN ns ii : Nat), ns ≤ sN →
    recordsLoop (sN : Int) 1 "" true w ii ns 0 =
      (match (w.filter nonHiddenB).drop (sN - ns) with
       | [] => ⟨[], [], ns + min (sN - ns) (w.filter nonHiddenB).length⟩
       | x :: _ => ⟨[x], [ii + (sN - ns) + 1], sN⟩) := by
  intro w
  induction w with
  | nil =>
    intro sN ns ii _
    simp [recordsLoop]
  | cons a rest ih =>
    intro sN ns ii h
    have hstop : ¬((1 : Int) ≤ 1 ∧ (1 : Int) ≤ ((0 : Nat) : Int)) := by omega
    by_cases hh : nonHiddenB a = true
    · by_cases hskip : (sN : Int) ≤ ((ns : Nat) : Int)
      · have hns : ns = sN := by omega
        have hinc : (sN : Int) ≤ ((ns : Nat) : Int) ∧ matchesFind "" true a = true :=
          ⟨hskip, by simp [matchesFind]⟩
        simp only [recordsLoop, if_neg hstop, if_pos hh, if_pos hinc]
        rw [recordsLoop_stop (sN : Int) 1 "" true rest (ii + 1) ns 1 (by omega) (by omega)]
        subst hns
        simp [List.filter_cons_of_pos hh]
      · have hlt : ns < sN := by omega
        have hinc : ¬((sN : Int) ≤ ((ns : Nat) : Int) ∧ matchesFind "" true a = true) := by
          intro hch
          exact hskip hch.1
        simp only [recordsLoop, if_neg hstop, if_pos hh, if_neg hinc]
        rw [ih sN (ns + 1) (ii + 1) (by omega)]
        have hd : sN - ns = (sN - (ns + 1)) + 1 := by omega
        rw [List.filter_cons_of_pos hh, hd, List.drop_succ_cons]
        cases hdrop : (rest.filter nonHiddenB).drop (sN - (ns + 1)) with
        | nil =>
          have hlen : (rest.filter nonHiddenB).length ≤ sN - (ns + 1) := by
            rw [List.drop_eq_nil_iff] at hdrop
            omega
          simp only [LoopOut.mk.injEq, List.length_cons, true_and]
          omega
        | cons x t =>
          simp only [LoopOut.mk.injEq, List.cons.injEq, and_true, true_and]
          omega
    · simp only [recordsLoop, if_neg hstop, if_neg hh,
        List.filter_cons_of_neg (by simpa using hh)]
      exact ih sN ns ii h

/-!  Claim theorems. -/

/-- Claim C1: display-index stability.  For a fixed directory snapshot and
any skip, limit, find and case-insensitivity parameters, a record that
appears both in the filtered listing and in the unfiltered listing with the
same skip and limit carries the same numeric display index in both; the
find filter changes only which records appear. -/
theorem history_display_index_stable (fs : List String) (skip limit : Int)
    (find : String) (ci : Bool) (hnd : fs.Nodup) (name : String) (i j : Nat)
    (h1 : (name, i) ∈ listPairs fs skip limit find ci)
    (h2 : (name, j) ∈ listPairs fs skip limit "" false) : i = j := by
  have hs1 := zip_recordsLoop_sublist skip limit find ci fs.reverse 0 0 0
  have hs2 := zip_recordsLoop_sublist skip limit "" false fs.reverse 0 0 0
  simp only [listPairs, getHistoryRecords] at h1 h2
  have hm1 := hs1.subset h1
  have hm2 := hs2.subset h2
  have hndf : (fs.reverse.filter nonHiddenB).Nodup :=
    (List.nodup_reverse.mpr hnd).filter _
  exact indexedFrom_functional _ 0 hndf name i j hm1 hm2

/-- Witness for C1: in a two-record directory, the record `a.json` is listed
with display index 2 both under the filter `find = "a"` and unfiltered. -/
theorem history_display_index_stable_w : (2 : Nat) = 2 :=
  history_display_index_stable ["a.json", "b.json"] 0 10 "a" false (by decide)
    "a.json" 2 2 (by decide) (by decide)

/-- Claim C8: for every directory snapshot and all parameters, the listing
walk returns items and display labels of equal length, the labels are
strictly increasing, and every label lies between 1 and the number of
non-hidden entries. -/
theorem history_indexes_invariant (fs : List String) (skip limit : Int)
    (find : String) (ci : Bool) :
    (getHistoryRecords fs skip limit find ci).items.length =
      (getHistoryRecords fs skip limit find ci).idxs.length
    ∧ (getHistoryRecords fs skip limit find ci).idxs.Pairwise (· < ·)
    ∧ ∀ i ∈ (getHistoryRecords fs skip limit find ci).idxs,
        1 ≤ i ∧ i ≤ countNonHidden fs := by
  have hlen := recordsLoop_length skip limit find ci fs.reverse 0 0 0
  have hsub := zip_recordsLoop_sublist skip limit find ci fs.reverse 0 0 0
  have hidxs : (getHistoryRecords fs skip limit find ci).idxs =
      ((recordsLoop skip limit find ci fs.reverse 0 0 0).items.zip
        (recordsLoop skip limit find ci fs.reverse 0 0 0).idxs).map Prod.snd := by
    simp only [getHistoryRecords]
    exact (List.map_snd_zip _ _ (le_of_eq hlen.symm)).symm
  refine ⟨hlen, ?_, ?_⟩
  · rw [hidxs]
    exact ((indexedFrom_pairwise _ 0).sublist hsub).map Prod.snd (fun a b h => h)
  · intro i hi
    rw [hidxs] at hi
    obtain ⟨p, hp, hpi⟩ := List.mem_map.mp hi
    have hm := mem_indexedFrom _ 0 p (hsub.subset hp)
    have hc := countNonHidden_reverse fs
    omega

/-- Witness for C8: in a concrete two-record directory, label 2 appears and
lies between 1 and the non-hidden count. -/
theorem history_indexes_invariant_w :
    1 ≤ 2 ∧ 2 ≤ countNonHidden ["a.json", "b.json"] :=
  (history_indexes_invariant ["a.json", "b.json"] 0 10 "" false).2.2 2 (by decide)

/-- Counterexample for C3: a directory holding only the hidden entry
`.hidden` has zero non-hidden entries, yet the listing reports a total of 1:
`numTotal` counts every directory entry, hidden ones included. -/
theorem total_count_counterex :
    (getHistoryRecords [".hidden"] 0 10 "" false).numTotal = 1
    ∧ countNonHidden [".hidden"] = 0
    ∧ (1 : Nat) ≠ 0 := by
  refine ⟨rfl, by decide, by decide⟩

/-- Claim C3 as amended: for every directory snapshot and all parameters,
the reported total is the count of all directory entries, hidden ones
included; hidden entries are excluded from the listed results but not from
the total. -/
theorem total_count_all_entries (fs : List String) (skip limit : Int)
    (find : String) (ci : Bool) :
    (getHistoryRecords fs skip limit find ci).numTotal = fs.length
    ∧ ∀ name ∈ (getHistoryRecords fs skip limit find ci).items,
        nonHiddenB name = true := by
  have hlen := recordsLoop_length skip limit find ci fs.reverse 0 0 0
  have hsub := zip_recordsLoop_sublist skip limit find ci fs.reverse 0 0 0
  refine ⟨rfl, ?_⟩
  intro name hname
  have hitems : (getHistoryRecords fs skip limit find ci).items =
      ((recordsLoop skip limit find ci fs.reverse 0 0 0).items.zip
        (recordsLoop skip limit find ci fs.reverse 0 0 0).idxs).map Prod.fst := by
    simp only [getHistoryRecords]
    exact (List.map_fst_zip _ _ (le_of_eq hlen)).symm
  rw [hitems] at hname
  obtain ⟨p, hp, hpn⟩ := List.mem_map.mp hname
  have hm := (mem_indexedFrom _ 0 p (hsub.subset hp)).2.2
  rw [hpn] at hm
  exact List.of_mem_filter hm

/-- Witness for C3 as amended: in a directory with one hidden and one
visible entry, the listed entry is indeed non-hidden. -/
theorem total_count_all_entries_w : nonHiddenB "a.json" = true :=
  (total_count_all_entries [".hid", "a.json"] 0 10 "" false).2 "a.json" (by decide)

/-- Claim C2: load-by-index correctness.  For a directory with N non-hidden
entries, loading record n with 1 ≤ n ≤ N succeeds and yields exactly the
record that the unfiltered listing pairs with display index n; for n outside
that range it fails with the no-records or invalid-index error and never
returns a nearest record. -/
theorem load_by_index_correct (fs : List String) (n : Int) :
    (1 ≤ n → n ≤ (countNonHidden fs : Int) →
      ∃ name, loadRecordByIndex fs n = .ok name
        ∧ (name, n.toNat) ∈ listPairs fs 0 0 "" false)
    ∧ ((n < 1 ∨ (countNonHidden fs : Int) < n) →
      loadRecordByIndex fs n = .error .noRecords
        ∨ loadRecordByIndex fs n = .error .invalidIndex) := by
  have hF := countNonHidden_reverse fs
  have hr := recordsLoop_load fs.reverse (n - 1).toNat 0 0 (Nat.zero_le _)
  rw [Nat.sub_zero] at hr
  have hskip : (if n > 1 then n - 1 else 0) = (((n - 1).toNat : Nat) : Int) := by
    split <;> omega
  have hdef : loadRecordByIndex fs n =
      (match (recordsLoop (((n - 1).toNat : Nat) : Int) 1 "" true fs.reverse 0 0 0).items,
             (recordsLoop (((n - 1).toNat : Nat) : Int) 1 "" true fs.reverse 0 0 0).idxs with
       | [x], [i] => if n = (i : Int) then Except.ok x else Except.error LoadErr.invalidIndex
       | _, _ => Except.error LoadErr.noRecords) := by
    simp only [loadRecordByIndex, getHistoryRecords, hskip]
  rw [hr] at hdef
  constructor
  · intro h1 h2
    have hs : (n - 1).toNat < (fs.reverse.filter nonHiddenB).length := by omega
    cases hdrop : (fs.reverse.filter nonHiddenB).drop (n - 1).toNat with
    | nil =>
      rw [List.drop_eq_nil_iff] at hdrop
      omega
    | cons x t =>
      have hget := List.drop_eq_getElem_cons hs
      rw [hdrop] at hget
      injection hget with hx ht
      simp only [hdrop] at hdef
      have hn : n = ((0 + (n - 1).toNat + 1 : Nat) : Int) := by omega
      rw [if_pos hn] at hdef
      refine ⟨x, hdef, ?_⟩
      have hup : listPairs fs 0 0 "" false =
          indexedFrom 0 (fs.reverse.filter nonHiddenB) := by
        simp only [listPairs, getHistoryRecords, recordsLoop_unbounded]
        exact zip_map_snd_indexedFrom _ 0
      rw [hup, hx]
      have hnt : n.toNat = 0 + (n - 1).toNat + 1 := by omega
      rw [hnt]
      exact getElem_mem_indexedFrom _ 0 (n - 1).toNat hs
  · intro h
    rcases h with h | h
    · have hs0 : (n - 1).toNat = 0 := by omega
      rw [hs0, List.drop_zero] at hdef
      cases hF0 : fs.reverse.filter nonHiddenB with
      | nil =>
        left
        simp only [hF0] at hdef
        exact hdef
      | cons x t =>
        right
        simp only [hF0] at hdef
        rw [if_neg (by omega : ¬n = ((0 + 0 + 1 : Nat) : Int))] at hdef
        exact hdef
    · left
      have hs : (fs.reverse.filter nonHiddenB).length ≤ (n - 1).toNat := by omega
      simp only [List.drop_eq_nil_iff.mpr hs] at hdef
      exact hdef

/-- Witness for C2: in a two-record directory, loading index 2 returns the
record the unfiltered listing pairs with index 2, and loading index 5 fails. -/
theorem load_by_index_correct_w :
    (∃ name, loadRecordByIndex ["a.json", "b.json"] 2 = .ok name
      ∧ (name, (2 : Int).toNat) ∈ listPairs ["a.json", "b.json"] 0 0 "" false)
    ∧ (loadRecordByIndex ["a.json", "b.json"] 5 = .error .noRecords
      ∨ loadRecordByIndex ["a.json", "b.json"] 5 = .error .invalidIndex) :=
  ⟨(load_by_index_correct ["a.json", "b.json"] 2).1 (by decide) (by decide),
   (load_by_index_correct ["a.json", "b.json"] 5).2 (by decide)⟩

theorem getOption_no_alias : ∀ (args aliases : List String) (d : String),
    (∀ a ∈ args, aliases.contains a = false) → getOption args aliases d = .ok d := by
  intro args
  induction args with
  | nil => intro aliases d _; rfl
  | cons a rest ih =>
    intro aliases d h
    have ha := h a (List.mem_cons_self a rest)
    simp only [getOption, ha, Bool.false_eq_true, if_false]
    exact ih aliases d (fun x hx => h x (List.mem_cons_of_mem _ hx))

theorem getOption_found :
    ∀ (ante : List String) (x : String) (post aliases : List String) (d : String),
      (∀ a ∈ ante, aliases.contains a = false) → aliases.contains x = true →
      getOption (ante ++ x :: post) aliases d =
        (match post with
         | [] => Except.error ()
         | v :: _ => Except.ok v) := by
  intro ante
  induction ante with
  | nil =>
    intro x post aliases d _ hx
    simp only [List.nil_append, getOption, hx, if_true]
  | cons a ante' ih =>
    intro x post aliases d h hx
    have ha := h a (List.mem_cons_self a ante')
    simp only [List.cons_append, getOption, ha, Bool.false_eq_true, if_false]
    exact ih x post aliases d (fun b hb => h b (List.mem_cons_of_mem _ hb)) hx

/-- Counterexample for C4: with the alias `-x` occurring twice, `getOption`
returns the token after the first occurrence, not the last; and with the
alias as the final token the access is out of range (a run-time panic in Go)
instead of the default. -/
theorem getOption_counterex :
    getOption ["-x", "a", "-x", "b"] ["-x"] "dflt" = .ok "a"
    ∧ Except.ok "a" ≠ (Except.ok "b" : Except Unit String)
    ∧ getOption ["-x"] ["-x"] "dflt" = .error ()
    ∧ Except.error () ≠ (Except.ok "dflt" : Except Unit String) := by
  refine ⟨rfl, by simp, rfl, by simp⟩

/-- Claim C4 as amended: `getOption` returns the token immediately following
the first occurrence of any alias; when no alias is present it returns the
default; when the first alias occurrence is the final token the index access
is out of range, so the program panics instead of returning the default. -/
theorem getOption_first_occurrence (args aliases : List String) (d : String) :
    ((∀ a ∈ args, aliases.contains a = false) → getOption args aliases d = .ok d)
    ∧ (∀ ante x post, args = ante ++ x :: post →
        (∀ a ∈ ante, aliases.contains a = false) → aliases.contains x = true →
        getOption args aliases d =
          (match post with
           | [] => Except.error ()
           | v :: _ => Except.ok v)) := by
  refine ⟨getOption_no_alias args aliases d, ?_⟩
  intro ante x post hsplit h hx
  rw [hsplit]
  exact getOption_found ante x post aliases d h hx

/-- Witness for C4 as amended: the alias at position 0 followed by a value
yields that value, and the later occurrence is ignored. -/
theorem getOption_first_occurrence_w :
    getOption ["-x", "val", "-x", "w"] ["-x"] "d" = .ok "val" := by
  have h := (getOption_first_occurrence ["-x", "val", "-x", "w"] ["-x"] "d").2
    [] "-x" ["val", "-x", "w"] rfl (by simp) (by decide)
  exact h

theorem modeLoop_contains : ∀ (cs : List String) (a0 : String),
    modeLoop cs a0 = if cs.contains (strLower a0) then strLower a0 else "" := by
  intro cs a0
  induction cs with
  | nil => simp [modeLoop]
  | cons c rest ih =>
    by_cases h : strLower a0 = c
    · simp [modeLoop, h]
    · simp only [modeLoop, if_neg h, ih, List.contains_cons]
      have hbeq : (strLower a0 == c) = false := by
        simp [h]
      simp [hbeq]

/-- Counterexample for C6: an invocation whose single argument is `-h` (or
`-v`) is dispatched to http mode, not to help (or version): the dispatcher
never looks for the `-h`, `--help`, `-v`, `--version` flags. -/
theorem determine_mode_counterex :
    determineMode ["-h"] = "http" ∧ determineMode ["-h"] ≠ "help"
    ∧ determineMode ["-v"] = "http" ∧ determineMode ["-v"] ≠ "version"
    ∧ determineMode ["get", "--help"] = "http" := by
  refine ⟨by decide, by decide, by decide, by decide, by decide⟩

/-- Claim C6 as amended: an empty argument list selects help mode; otherwise
the lowercased first argument selects the matching command among help,
version and history, and any other first argument selects http mode.  The
`-h`, `--help`, `-v`, `--version` flags play no role in mode selection. -/
theorem determine_mode_spec (args : List String) :
    determineMode args =
      (match args with
       | [] => "help"
       | a0 :: _ => if commands.contains (strLower a0) then strLower a0 else "http") := by
  cases args with
  | nil => rfl
  | cons a0 rest =>
    simp only [determineMode, modeLoop_contains]
    by_cases h : commands.contains (strLower a0) = true
    · rw [if_pos h, if_pos h]
      have hne : ¬strLower a0 = "" := by
        intro he
        rw [he] at h
        simp [commands] at h
      rw [if_neg hne]
    · rw [if_neg h, if_neg h, if_pos rfl]

/-- Claim C9: at the history-list boundary, a limit value that is
non-numeric or below 1 silently becomes the default 10, and a skip value
that is non-numeric or negative silently becomes 0. -/
theorem list_options_defaulting (args : List String) (skip limit : Int)
    (find : String) (ci : Bool)
    (h : getHistoryListOptions args = .ok (skip, limit, find, ci)) :
    (∀ s, getOption args ["-l", "--limit"] "" = .ok s → s ≠ "" →
      (atoi s = none ∨ ∃ v, atoi s = some v ∧ v < 1) → limit = 10)
    ∧ (∀ s, getOption args ["-s", "--skip"] "" = .ok s → s ≠ "" →
      (atoi s = none ∨ ∃ v, atoi s = some v ∧ v < 0) → skip = 0) := by
  cases hso : getOption args ["-s", "--skip"] "" with
  | error e => simp [getHistoryListOptions, hso] at h
  | ok skipOpt =>
    cases hlo : getOption args ["-l", "--limit"] "" with
    | error e => simp [getHistoryListOptions, hso, hlo] at h
    | ok limitOpt =>
      cases hfo : getOption args ["-f", "--find"] "" with
      | error e => simp [getHistoryListOptions, hso, hlo, hfo] at h
      | ok findOpt =>
        simp only [getHistoryListOptions, hso, hlo, hfo, Except.ok.injEq,
          Prod.mk.injEq] at h
        obtain ⟨hskip, hlimit, _, _⟩ := h
        constructor
        · intro s hs hne hbad
          injection hs with hs'
          subst hs'
          rcases hbad with hnone | ⟨v, hv, hvlt⟩
          · rw [← hlimit]
            simp [hne, hnone]
          · rw [← hlimit]
            simp [hne, hv, hvlt]
        · intro s hs hne hbad
          injection hs with hs'
          subst hs'
          rcases hbad with hnone | ⟨v, hv, hvlt⟩
          · rw [← hskip]
            simp [hne, hnone]
          · rw [← hskip]
            simp [hne, hv, hvlt]

/-- Witness for C9: with `-l abc` (non-numeric) and `-s -7` (negative) the
parsed options are limit 10 and skip 0. -/
theorem list_options_defaulting_w : ((10 : Int) = 10) ∧ ((0 : Int) = 0) := by
  have h := list_options_defaulting ["history", "list", "-l", "abc", "-s", "-7"]
    0 10 "" false rfl
  exact ⟨h.1 "abc" rfl (by decide) (Or.inl (by decide)),
    h.2 "-7" rfl (by decide) (Or.inr ⟨-7, by decide, by decide⟩)⟩

/-- Claim C10: history detail or replay with fewer than three tokens fails
with the missing-index error, and with a non-integer third token fails with
the integer-parse error; both failures are independent of the directory
snapshot, which models that no history file is opened or read. -/
theorem load_missing_index_errors (args fs : List String) :
    (args.length < 3 → loadAppFromHistory args fs = .error .missingIndex)
    ∧ (3 ≤ args.length → atoi (args.getD 2 "") = none →
      loadAppFromHistory args fs = .error .parseErr) := by
  constructor
  · intro h
    simp [loadAppFromHistory, h]
  · intro h3 hat
    have h3' : ¬args.length < 3 := by omega
    simp only [loadAppFromHistory, if_neg h3']
    rw [hat]

/-- Witness for C10: `history detail` alone is the missing-index error and
`history detail xy` is the parse error, whatever the directory holds. -/
theorem load_missing_index_errors_w :
    loadAppFromHistory ["history", "detail"] ["a.json"] = .error .missingIndex
    ∧ loadAppFromHistory ["history", "detail", "xy"] ["a.json"] = .error .parseErr :=
  ⟨(load_missing_index_errors ["history", "detail"] ["a.json"]).1 (by decide),
   (load_missing_index_errors ["history", "detail", "xy"] ["a.json"]).2
     (by decide) (by decide)⟩

theorem collapseU_subset : ∀ (l : List Char), ∀ c ∈ collapseU l, c ∈ l := by
  intro l
  induction l using collapseU.induct with
  | case1 => intro c hc; simp [collapseU] at hc
  | case2 d => intro c hc; simpa [collapseU] using hc
  | case3 c d rest h ih =>
    intro e he
    rw [show collapseU (c :: d :: rest) = collapseU (d :: rest) by
      simp only [collapseU, if_pos h]] at he
    exact List.mem_cons_of_mem _ (ih e he)
  | case4 c d rest h ih =>
    intro e he
    rw [show collapseU (c :: d :: rest) = c :: collapseU (d :: rest) by
      simp only [collapseU, if_neg h]] at he
    rcases List.mem_cons.mp he with he | he
    · exact he ▸ List.mem_cons_self _ _
    · exact List.mem_cons_of_mem _ (ih e he)

theorem collapseU_head_of_ne (d : Char) (rest : List Char) (hd : d ≠ '_') :
    ∃ t, collapseU (d :: rest) = d :: t := by
  cases rest with
  | nil => exact ⟨[], rfl⟩
  | cons e r =>
    have hcond : ¬(d = '_' ∧ e = '_') := fun h => hd h.1
    exact ⟨collapseU (e :: r), by simp only [collapseU, if_neg hcond]⟩

theorem collapseU_chain' : ∀ l : List Char,
    (collapseU l).Chain' (fun a b => ¬(a = '_' ∧ b = '_')) := by
  intro l
  induction l using collapseU.induct with
  | case1 => simp [collapseU]
  | case2 d => simp [collapseU]
  | case3 c d rest h ih =>
    rw [show collapseU (c :: d :: rest) = collapseU (d :: rest) by
      simp only [collapseU, if_pos h]]
    exact ih
  | case4 c d rest h ih =>
    rw [show collapseU (c :: d :: rest) = c :: collapseU (d :: rest) by
      simp only [collapseU, if_neg h]]
    by_cases hc : c = '_'
    · have hd : d ≠ '_' := fun hdu => h ⟨hc, hdu⟩
      obtain ⟨t, ht⟩ := collapseU_head_of_ne d rest hd
      rw [ht]
      rw [List.chain'_cons]
      exact ⟨fun hab => hd hab.2, ht ▸ ih⟩
    · exact List.chain'_cons'.mpr ⟨fun y _ hab => hc hab.1, ih⟩

theorem cleanUrl_wordChars (u : String) :
    ∀ c ∈ (cleanUrl u).data, isWordChar c = true := by
  intro c hc
  have hc' := collapseU_subset _ c hc
  obtain ⟨x, _, hx⟩ := List.mem_map.mp hc'
  rw [← hx]
  unfold urlCharClean
  by_cases h : isWordChar x = true
  · simp [h]
  · simp only [h, if_neg]
    have : isWordChar '_' = true := by decide
    simp [h, this]

/-- Counterexample for C5: a concrete record written at
2024-01-02 03:04:05 for a GET of http://a.b is stored under
`2024_01_02_03_04_05__GET__http_a_b.json`: the timestamp leads the name,
not the method as the claim states. -/
theorem file_name_counterex :
    getFileName "2024-01-02 03:04:05.9 +0000 UTC" "GET" "http://a.b" =
      "2024_01_02_03_04_05__GET__http_a_b.json"
    ∧ "2024_01_02_03_04_05__GET__http_a_b.json" ≠
      "GET__http_a_b__2024_01_02_03_04_05.json" := by
  exact ⟨by decide, by decide⟩

/-- Claim C5 as amended: the history file name is
`{sanitized-timestamp}__{method}__{sanitized-url}` — timestamp first, not
method first — trimmed to 196 characters from the end before the `.json`
extension is appended; URL sanitization replaces every character outside
`[A-Za-z0-9_]` with an underscore and collapses repeated underscores. -/
theorem file_name_spec (ts m u : String) :
    getFileName ts m u =
      strTake (cleanTimeOf ts ++ "__" ++ m ++ "__" ++ cleanUrl u) 196 ++ ".json"
    ∧ (∀ c ∈ (cleanUrl u).data, isWordChar c = true)
    ∧ (cleanUrl u).data.Chain' (fun a b => ¬(a = '_' ∧ b = '_')) := by
  refine ⟨?_, cleanUrl_wordChars u, ?_⟩
  · unfold getFileName
    dsimp only
    by_cases h : (cleanTimeOf ts ++ "__" ++ m ++ "__" ++ cleanUrl u).length > 196
    · rw [if_pos h]
    · rw [if_neg h]
      have hlen : (cleanTimeOf ts ++ "__" ++ m ++ "__" ++ cleanUrl u).data.length ≤ 196 := by
        have he : (cleanTimeOf ts ++ "__" ++ m ++ "__" ++ cleanUrl u).length =
            (cleanTimeOf ts ++ "__" ++ m ++ "__" ++ cleanUrl u).data.length := rfl
        omega
      unfold strTake
      rw [List.take_of_length_le hlen]
  · have he : (cleanUrl u).data = collapseU (u.data.map urlCharClean) := rfl
    rw [he]
    exact collapseU_chain' _

/-- Witness for C5 as amended: a character of the sanitized URL of a
concrete input is in the word class. -/
theorem file_name_spec_w : isWordChar 'h' = true :=
  (file_name_spec "2024-01-02 03:04:05.9 +0000 UTC" "GET" "http://a.b").2.1
    'h' (by decide)

/-- Counterexample for C7: with the dangling `-o` alias at the end of the
argument list, the option reader's out-of-range access aborts the run before
the data-flag check, so the invocation does not fail with the data-flag
error even though the method is GET and the data value is non-empty. -/
theorem data_flag_counterex :
    createRequest (fun _ => true) (fun _ => none) ["get", "u", "-d", "x", "-o"] =
      .error .argIndexOutOfRange
    ∧ CreateErr.argIndexOutOfRange ≠ CreateErr.dataFlagInvalid := by
  exact ⟨rfl, by decide⟩

/-- Claim C7 as amended: when the resolved method is GET, HEAD or DELETE,
the URL token is present and parses, every flag-option read succeeds (no
alias stands as the final token — a dangling alias panics inside the option
reader before the data check), and the data option value is non-empty, then
request construction fails with the error "Data flag is only valid for
POST, PATCH, and PUT requests."; `CreateRequest` runs before `SendRequest`,
so no network call is made. -/
theorem data_flag_rejected (urlOk : String → Bool)
    (fc : String → Option String) (args : List String) (d : String)
    (a0 : String) (rest : List String) (hargs : args = a0 :: rest)
    (hm : requestMethodOf args = "GET" ∨ requestMethodOf args = "HEAD"
      ∨ requestMethodOf args = "DELETE")
    (hlen : ¬args.length < urlIndexOf args + 1)
    (hurl : urlOk (args.getD (urlIndexOf args) "") = true)
    (hi : ∃ v, getOption args ["-i", "--input"] "" = .ok v)
    (ho : ∃ v, getOption args ["-o", "--output"] "" = .ok v)
    (hc : ∃ v, getOption args ["-c", "--content-type"] "" = .ok v)
    (ha : ∃ v, getOption args ["-a", "--accept"] "" = .ok v)
    (hd : getOption args ["-d", "--data"] "" = .ok d)
    (hdne : d ≠ "")
    (ht : ∃ v, getOption args ["-t", "--timeout"] "0" = .ok v) :
    createRequest urlOk fc args = .error .dataFlagInvalid := by
  subst hargs
  obtain ⟨vi, hi⟩ := hi
  obtain ⟨vo, ho⟩ := ho
  obtain ⟨vc, hc⟩ := hc
  obtain ⟨va, ha⟩ := ha
  obtain ⟨vt, ht⟩ := ht
  simp only [requestMethodOf] at hm
  simp only [urlIndexOf] at hlen hurl
  rcases hm with h | h | h <;>
    simp only [createRequest, if_neg hlen, hurl, hi, ho, hc, ha, hd, ht, h] <;>
    simp [hdne]

/-- Witness for C7 as amended: `gohttp get u -d x` (with a URL oracle that
accepts every token) fails with the data-flag error. -/
theorem data_flag_rejected_w :
    createRequest (fun _ => true) (fun _ => none) ["get", "u", "-d", "x"] =
      .error .dataFlagInvalid :=
  data_flag_rejected (fun _ => true) (fun _ => none) ["get", "u", "-d", "x"] "x"
    "get" ["u", "-d", "x"] rfl (Or.inl (by decide)) (by decide) rfl
    ⟨"", rfl⟩ ⟨"", rfl⟩ ⟨"", rfl⟩ ⟨"", rfl⟩ rfl (by decide) ⟨"0", rfl⟩

end GoHttp
